import Mathlib

deriving instance DecidableEq for Except

/-!
Shallow embedding of `Testingdata.py`: a batch script that loads Google
Trends CSV exports, normalizes each into a canonical two-column series,
inner-joins them on the `Time` column into a wide table, runs a monthly
continuity diagnostic, and derives a long-format table.

Modelling choices:
* Timestamps are encoded as `Nat` month indices (the data is monthly and
  every parsed date is a month start), so `pd.date_range(lo, hi, freq="MS")`
  becomes the integer range `[lo, hi]`.
* A raw `Time` cell is modelled by what `pd.to_datetime` does to it:
  a parseable date, a null cell (becomes `NaT`), or a malformed non-null
  string (`pd.to_datetime` with its default `errors="raise"` raises).
* A raw value cell is modelled by what `pd.to_numeric(errors="coerce")`
  sees: a numeric token or a non-numeric token (coerced to NaN, i.e. `none`).
* Dataframes are lists of rows; `reset_index(drop=True)` is the identity on
  this representation since lists are densely indexed from zero.
* Exceptions abort the Python script before the output writes at lines
  88–94, so the script is modelled as an `Except` computation whose `ok`
  payload holds the written outputs; an `error` result means nothing was
  written.  The trailing read-back / plotting section (lines 97–122) only
  consumes the written files and is outside every claim.
-/

/-- One cell of the raw `Time` column, by how `pd.to_datetime` (line 17,
default `errors="raise"`) treats it: a parseable date (month index), a
null/empty cell (parses to `NaT` without error), or a malformed non-null
string (raises). -/
inductive TimeCell where
  | valid (t : Nat)
  | missing
  | malformed (s : String)
  deriving DecidableEq, Repr

/-- One cell of the raw value column, by how `pd.to_numeric(errors="coerce")`
(line 34) treats it: a numeric token, or a non-numeric token (becomes NaN). -/
inductive ValCell where
  | num (n : Int)
  | token (s : String)
  deriving DecidableEq, Repr

/-- One row of a raw CSV: the `Time` cell and the cells of the non-`Time`
columns, in header order. -/
structure RawRow where
  time : TimeCell
  vals : List ValCell
  deriving DecidableEq, Repr

/-- A raw CSV as read by `pd.read_csv`: header names (not yet stripped) and
rows. -/
structure RawTable where
  header : List String
  rows : List RawRow
  deriving DecidableEq, Repr

/-- A row of a cleaned canonical series: a parsed timestamp (rows with
unparsed/null timestamps have been dropped, which is why the field is a bare
`Nat`) and the coerced numeric value (`none` = NaN). -/
structure Srow where
  time : Nat
  value : Option Int
  deriving DecidableEq, Repr

/-- Output of `load_trends_csv`: the cleaned metric name and the cleaned
rows. -/
structure CanonicalSeries where
  name : String
  rows : List Srow
  deriving DecidableEq, Repr

/-- Errors the script can raise before writing any output. -/
inductive PipeError where
  | missingTimeColumn (file : String) (cols : List String)
  | unparsableTimestamp (file : String) (cell : String)
  | ambiguousValueColumn (file : String) (valueCols : List String)
  | insufficientInputFiles (expected : Nat) (found : Nat) (names : List String)
  | emptyDateRange
  deriving DecidableEq, Repr

/-- Python `str.strip()`: remove leading and trailing whitespace. -/
def pyStrip (s : String) : String :=
  String.mk (((s.toList.dropWhile Char.isWhitespace).reverse.dropWhile
    Char.isWhitespace).reverse)

/-- Python `s.split()` on a character list: split on whitespace runs,
discarding empty pieces; `cur` holds the reversed current word. -/
def splitWsAux : List Char → List Char → List (List Char)
  | [], cur => if cur.isEmpty then [] else [cur.reverse]
  | c :: cs, cur =>
    if c.isWhitespace then
      if cur.isEmpty then splitWsAux cs [] else cur.reverse :: splitWsAux cs []
    else splitWsAux cs (c :: cur)

/-- Python `s.split()` (no arguments): whitespace-run splitting. -/
def pySplitWs (s : String) : List String :=
  (splitWsAux s.toList []).map String.mk

/-- Python `" ".join(s.split())`: split on whitespace runs and rejoin with
single spaces (line 30). -/
def collapseWs (s : String) : String :=
  String.intercalate " " (pySplitWs s)

/-- Python `str.title()` on one character, given whether the previous
character was alphabetic: first letter of each alphabetic run is uppercased,
the rest lowercased. -/
def titleChar (prevAlpha : Bool) (c : Char) : Char :=
  if c.isAlpha then (if prevAlpha then c.toLower else c.toUpper) else c

/-- Python `str.title()` (line 30). -/
def titleCase (s : String) : String :=
  String.mk ((s.toList.foldl
    (fun acc c => (titleChar acc.2 c :: acc.1, c.isAlpha)) ([], false)).1.reverse)

/-- The cleaned trend name of line 30: `" ".join(trend_name.split()).title()`. -/
def cleanTrendName (s : String) : String :=
  titleCase (collapseWs s)

/-- `pd.to_datetime` (line 17) on one `Time` cell; raises on a malformed
non-null cell, maps a null cell to `NaT` (`none`). -/
def toDatetimeCell (file : String) : TimeCell → Except PipeError (Option Nat)
  | .valid t => .ok (some t)
  | .missing => .ok none
  | .malformed s => .error (.unparsableTimestamp file s)

/-- `pd.to_numeric(col, errors="coerce")` (line 34) on one cell: total, a
non-numeric token becomes NaN (`none`). -/
def toNumericCell : ValCell → Option Int
  | .num n => some n
  | .token _ => none

/-- A row after the `Time` column has been parsed (line 17): timestamp may be
`NaT` (`none`), value cells untouched. -/
structure PRow where
  ptime : Option Nat
  vals : List ValCell
  deriving DecidableEq, Repr

/-- `df.dropna(subset=["Time"])` (line 37) after value coercion: keep exactly
the rows whose timestamp is not null, extracting the timestamp. -/
def dropnaTime (rs : List (Option Nat × Option Int)) : List Srow :=
  rs.filterMap (fun p => p.1.map (fun t => ⟨t, p.2⟩))

/-- `df.drop_duplicates(subset=["Time"])` (line 38): keep the first row of
each timestamp group, in original order; `seen` accumulates timestamps
already kept. -/
def dedupByTime : List Srow → List Nat → List Srow
  | [], _ => []
  | r :: rs, seen =>
    if seen.contains r.time then dedupByTime rs seen
    else r :: dedupByTime rs (r.time :: seen)

/-- Ordering used by `sort_values("Time")` on series rows. -/
def srowLE (a b : Srow) : Prop := a.time ≤ b.time

instance : DecidableRel srowLE := fun a b => Nat.decLe a.time b.time

instance : IsTotal Srow srowLE := ⟨fun a b => Nat.le_total a.time b.time⟩

instance : IsTrans Srow srowLE := ⟨fun _ _ _ => Nat.le_trans⟩

/-- `df.sort_values("Time").reset_index(drop=True)` (line 38) on series
rows, as a stable ascending sort (at this point timestamps are unique, so
any correct sort produces this list). -/
def sortSrows (rs : List Srow) : List Srow :=
  List.insertionSort srowLE rs

/-- The value-coercion step (line 34) applied to a parsed row, paired with
its timestamp; in the success path there is exactly one value cell. -/
def coerceRow (r : PRow) : Option Nat × Option Int :=
  (r.ptime, toNumericCell (r.vals.headD (.token "")))

/-- The data-cleaning tail of `load_trends_csv` (lines 34–38): coerce values,
drop null-timestamp rows, deduplicate timestamps keeping the first
occurrence, sort ascending by timestamp and reindex densely. -/
def cleanRows (parsed : List PRow) : List Srow :=
  sortSrows (dedupByTime (dropnaTime (parsed.map coerceRow)) [])

/-- `load_trends_csv` (lines 8–40): strip headers, require a `Time` column,
parse timestamps (raising on a malformed cell), require exactly one value
column, clean its name, coerce values, drop null timestamps, deduplicate,
sort. -/
def load_trends_csv (file : String) (tbl : RawTable) :
    Except PipeError CanonicalSeries := do
  let cols := tbl.header.map pyStrip
  if ¬ cols.contains "Time" then
    throw (.missingTimeColumn file cols)
  let parsed ← tbl.rows.mapM (fun r => do
    let t ← toDatetimeCell file r.time
    pure (⟨t, r.vals⟩ : PRow))
  let valueCols := cols.filter (fun c => c ≠ "Time")
  match valueCols with
  | [vc] => pure ⟨cleanTrendName vc, cleanRows parsed⟩
  | other => throw (.ambiguousValueColumn file other)

/-- One row of the wide merged table: a timestamp and one value per metric
column, in merge order. -/
structure Mrow where
  time : Nat
  vals : List (Option Int)
  deriving DecidableEq, Repr

/-- `merged.merge(df, on="Time", how="inner")` (line 72): an inner join on
exact timestamp equality, keeping left row order and pairing each left row
with every matching right row. -/
def mergeStep (acc : List Mrow) (s : CanonicalSeries) : List Mrow :=
  acc.flatMap (fun r =>
    (s.rows.filter (fun q => q.time == r.time)).map
      (fun q => ⟨r.time, r.vals ++ [q.value]⟩))

/-- The accumulator seeded with the first series (line 70). -/
def initMerged (s : CanonicalSeries) : List Mrow :=
  s.rows.map (fun r => ⟨r.time, [r.value]⟩)

/-- Ordering used by `sort_values("Time")` on merged rows. -/
def mrowLE (a b : Mrow) : Prop := a.time ≤ b.time

instance : DecidableRel mrowLE := fun a b => Nat.decLe a.time b.time

instance : IsTotal Mrow mrowLE := ⟨fun a b => Nat.le_total a.time b.time⟩

instance : IsTrans Mrow mrowLE := ⟨fun _ _ _ => Nat.le_trans⟩

/-- Lines 70–75: fold the inner join over the remaining series, then
`merged.sort_values("Time").reset_index(drop=True)`. -/
def mergeAll (d0 : CanonicalSeries) (rest : List CanonicalSeries) : List Mrow :=
  List.insertionSort mrowLE (rest.foldl mergeStep (initMerged d0))

/-- Outcome of the continuity diagnostic (lines 80–85): either silent, or a
warning showing the first (at most 10) missing expected months together with
whether more than 10 were truncated. -/
inductive ContinuityResult where
  | quiet
  | warn (missingShown : List Nat) (more : Bool)
  deriving DecidableEq, Repr

/-- Lines 79–85: build `pd.date_range(min, max, freq="MS")` as the integer
range `[lo, hi]`; on the empty table `min`/`max` are `NaT` and
`pd.date_range` raises `ValueError` ("Neither start nor end can be NaT").
On a length or element-wise mismatch, warn, printing `missing[:10]` and an
ellipsis exactly when `len(missing) > 10`. -/
def continuityCheck (rows : List Mrow) : Except PipeError ContinuityResult :=
  match rows.map Mrow.time with
  | [] => .error .emptyDateRange
  | t :: ts =>
    let lo := ts.foldl Nat.min t
    let hi := ts.foldl Nat.max t
    let expected := List.range' lo (hi + 1 - lo)
    if expected.length ≠ (t :: ts).length ∨ expected ≠ t :: ts then
      let missing := expected.filter (fun m => ¬ (t :: ts).contains m)
      .ok (.warn (missing.take 10) (decide (10 < missing.length)))
    else
      .ok .quiet

/-- The list `missing = expected.difference(merged["Time"])` of line 83:
expected month starts absent from the merged timestamps, in ascending
order (empty for the empty table, where the code never reaches line 83). -/
def missingMonths : List Nat → List Nat
  | [] => []
  | t :: ts =>
    let lo := ts.foldl Nat.min t
    let hi := ts.foldl Nat.max t
    (List.range' lo (hi + 1 - lo)).filter (fun m => ¬ (t :: ts).contains m)

/-- One row of the long/tidy table (line 92): columns `Time`, `Trend`,
`Interest`. -/
structure Lrow where
  time : Nat
  trend : String
  interest : Option Int
  deriving DecidableEq, Repr

/-- `merged.melt(id_vars="Time", var_name="Trend", value_name="Interest")`
(line 92): pandas stacks the value columns one after another, so the
enumeration is metric-column outer, original row inner (column-major). -/
def melt (names : List String) (rows : List Mrow) : List Lrow :=
  (List.range names.length).flatMap (fun i =>
    rows.map (fun r => ⟨r.time, names.getD i "", r.vals.getD i none⟩))

/-- One discovered CSV file: its name and parsed contents. -/
structure FileEntry where
  name : String
  table : RawTable
  deriving DecidableEq, Repr

/-- What the script writes (lines 88–94): the wide table (metric names and
rows) and the long table. -/
structure Outputs where
  names : List String
  wide : List Mrow
  long : List Lrow
  deriving DecidableEq, Repr

/-- Whether the first list is an initial segment of the second. -/
def charsBeginWith : List Char → List Char → Bool
  | [], _ => true
  | _ :: _, [] => false
  | p :: ps, c :: cs => p == c && charsBeginWith ps cs

/-- `fnmatch` of the glob pattern `time_series_*.csv` (line 47): the name is
the fixed head, then anything (possibly empty), then the fixed tail. -/
def globTimeSeriesCsv (name : String) : Bool :=
  let cs := name.toList
  charsBeginWith "time_series_".toList cs &&
  charsBeginWith ".csv".toList.reverse cs.reverse &&
  decide ("time_series_".length + ".csv".length ≤ cs.length)

/-- The script body (lines 46–94): glob `time_series_*.csv`, require at
least 4 files, normalize each, inner-join them all, run the continuity
diagnostic, and produce the wide and long outputs.  Any raised error aborts
before the writes, so the outputs exist only in the `ok` payload. -/
def run (dir : List FileEntry) : Except PipeError Outputs := do
  let files := dir.filter (fun f => globTimeSeriesCsv f.name)
  if files.length < 4 then
    throw (.insufficientInputFiles 4 files.length (files.map FileEntry.name))
  let dfs ← files.mapM (fun f => load_trends_csv f.name f.table)
  match dfs with
  | [] => throw (.insufficientInputFiles 4 0 [])
  | d0 :: rest =>
    let merged := mergeAll d0 rest
    let _diag ← continuityCheck merged
    let names := (d0 :: rest).map CanonicalSeries.name
    pure ⟨names, merged, melt names merged⟩

/-- First-occurrence deduplication, generic; `seen` accumulates elements
already kept. -/
def dedupFirst {α : Type} [BEq α] : List α → List α → List α
  | [], _ => []
  | a :: as, seen =>
    if seen.contains a then dedupFirst as seen
    else a :: dedupFirst as (a :: seen)

/-- Modelled from the spec: the tuple enumeration order the spec asserts for
the long-format derivation — "preserve original row order, then
metric-column order" (row outer, metric inner).  Used only to compare with
the code's `melt`. -/
def meltRowMajorSpec (names : List String) (rows : List Mrow) : List Lrow :=
  rows.flatMap (fun r =>
    (List.range names.length).map (fun i => ⟨r.time, names.getD i "", r.vals.getD i none⟩))

/-- Modelled from the spec: the inverse reshape ("pivot") of the round-trip
property — rebuild a wide table from a long table by taking timestamps and
trend labels in first-occurrence order and looking each (timestamp, trend)
cell up in the long table. -/
def pivotBack (l : List Lrow) : List Mrow :=
  let times := dedupFirst (l.map Lrow.time) []
  let trends := dedupFirst (l.map Lrow.trend) []
  times.map (fun t => ⟨t, trends.map (fun nm =>
    match l.find? (fun r => r.time == t && r.trend == nm) with
    | some r => r.interest
    | none => none)⟩)

/-- What `pd.to_datetime` returns on a cell that does not raise: a valid cell
parses to its date, a null cell becomes `NaT` (`none`).  (On a malformed cell
`toDatetimeCell` raises instead; this total description is used to state
what `load_trends_csv` produces when no cell is malformed.) -/
def parseCellTotal : TimeCell → Option Nat
  | .valid t => some t
  | .missing => none
  | .malformed _ => none

/-- The parsed rows of a table whose `Time` cells never raise. -/
def parseRowsTotal (rows : List RawRow) : List PRow :=
  rows.map (fun r => ⟨parseCellTotal r.time, r.vals⟩)

/-- No `Time` cell of the table makes `pd.to_datetime` raise. -/
def NoMalformedTimes (tbl : RawTable) : Prop :=
  ∀ r ∈ tbl.rows, ∀ s, r.time ≠ .malformed s

/-! ### Library-style helper lemmas -/

theorem find?_eq_head?_filterP {α : Type} (p : α → Bool) (l : List α) :
    l.find? p = (l.filter p).head? := by
  induction l with
  | nil => rfl
  | cons a l ih =>
    by_cases h : p a
    · rw [List.find?_cons_of_pos _ h, List.filter_cons_of_pos h, List.head?_cons]
    · rw [List.find?_cons_of_neg _ (by simpa using h),
        List.filter_cons_of_neg (by simpa using h), ih]

/-! ### Lemmas about the normalizer's cleaning stages -/

theorem mapM_toDatetime_ok (file : String) (rows : List RawRow)
    (h : ∀ r ∈ rows, ∀ s, r.time ≠ .malformed s) :
    (rows.mapM (fun r => do
      let t ← toDatetimeCell file r.time
      pure (⟨t, r.vals⟩ : PRow)) : Except PipeError (List PRow))
      = .ok (parseRowsTotal rows) := by
  induction rows with
  | nil => rfl
  | cons r rs ih =>
    have hr : ∀ s, r.time ≠ .malformed s := h r (by simp)
    have hcell : toDatetimeCell file r.time = .ok (parseCellTotal r.time) := by
      cases ht : r.time with
      | valid t => rfl
      | missing => rfl
      | malformed s => exact absurd ht (hr s)
    rw [List.mapM_cons, ih (fun q hq s => h q (by simp [hq]) s), hcell]
    rfl

theorem load_trends_csv_ok (file : String) (tbl : RawTable) (vc : String)
    (h1 : (tbl.header.map pyStrip).contains "Time" = true)
    (h2 : (tbl.header.map pyStrip).filter (fun c => c ≠ "Time") = [vc])
    (h3 : NoMalformedTimes tbl) :
    load_trends_csv file tbl =
      .ok ⟨cleanTrendName vc, cleanRows (parseRowsTotal tbl.rows)⟩ := by
  unfold load_trends_csv
  rw [if_neg (fun hcon => hcon h1)]
  rw [mapM_toDatetime_ok file tbl.rows h3]
  simp only [h2]
  rfl

theorem mem_times_dropnaTime (rs : List (Option Nat × Option Int)) (t : Nat) :
    t ∈ (dropnaTime rs).map Srow.time ↔ some t ∈ rs.map Prod.fst := by
  simp only [dropnaTime, List.mem_map, List.mem_filterMap, Option.map_eq_some']
  constructor
  · rintro ⟨r, ⟨p, hp, u, hu, rfl⟩, rfl⟩
    exact ⟨p, hp, hu⟩
  · rintro ⟨p, hp, hu⟩
    exact ⟨⟨t, p.2⟩, ⟨p, hp, t, hu, rfl⟩, rfl⟩

theorem mem_dropnaTime (rs : List (Option Nat × Option Int)) (r : Srow) :
    r ∈ dropnaTime rs ↔ (some r.time, r.value) ∈ rs := by
  simp only [dropnaTime, List.mem_filterMap, Option.map_eq_some']
  constructor
  · rintro ⟨p, hp, u, hu, rfl⟩
    exact by simpa [← hu] using hp
  · intro hp
    exact ⟨(some r.time, r.value), hp, r.time, rfl, rfl⟩

theorem mem_times_dedupByTime (l : List Srow) (seen : List Nat) (t : Nat) :
    t ∈ (dedupByTime l seen).map Srow.time ↔ t ∈ l.map Srow.time ∧ t ∉ seen := by
  induction l generalizing seen with
  | nil => simp [dedupByTime]
  | cons r rs ih =>
    by_cases h : seen.contains r.time
    · rw [dedupByTime, if_pos h, ih]
      have hmem : r.time ∈ seen := List.elem_iff.mp h
      constructor
      · rintro ⟨hl, hs⟩
        exact ⟨by simp [hl], hs⟩
      · rintro ⟨hl, hs⟩
        rcases (by simpa using hl : t = r.time ∨ t ∈ rs.map Srow.time) with rfl | hl2
        · exact absurd hmem hs
        · exact ⟨hl2, hs⟩
    · rw [dedupByTime, if_neg h, List.map_cons]
      rw [List.mem_cons, ih]
      have hns : r.time ∉ seen := fun hc => h (List.elem_iff.mpr hc)
      constructor
      · rintro (rfl | ⟨hl, hs⟩)
        · exact ⟨by simp, hns⟩
        · exact ⟨by simp [hl], fun hc => hs (by simp [hc])⟩
      · rintro ⟨hl, hs⟩
        rcases (by simpa using hl : t = r.time ∨ t ∈ rs.map Srow.time) with rfl | hl2
        · exact Or.inl rfl
        · by_cases ht : t = r.time
          · exact Or.inl ht
          · exact Or.inr ⟨hl2, by simp [hs, ht]⟩

theorem mem_of_mem_dedupByTime (l : List Srow) (seen : List Nat) (r : Srow)
    (h : r ∈ dedupByTime l seen) : r ∈ l := by
  induction l generalizing seen with
  | nil => simp [dedupByTime] at h
  | cons q rs ih =>
    by_cases hc : seen.contains q.time
    · rw [dedupByTime, if_pos hc] at h
      exact List.mem_cons_of_mem _ (ih _ h)
    · rw [dedupByTime, if_neg hc] at h
      rcases List.mem_cons.mp h with rfl | h2
      · exact List.mem_cons_self _ _
      · exact List.mem_cons_of_mem _ (ih _ h2)

theorem dedupByTime_keeps_first (l : List Srow) (seen : List Nat) (r : Srow)
    (h : r ∈ dedupByTime l seen) :
    r.time ∉ seen ∧ l.find? (fun q => q.time == r.time) = some r := by
  induction l generalizing seen with
  | nil => simp [dedupByTime] at h
  | cons q rs ih =>
    by_cases hc : seen.contains q.time
    · rw [dedupByTime, if_pos hc] at h
      obtain ⟨hns, hfind⟩ := ih seen h
      have hne : q.time ≠ r.time := fun he => hns (he ▸ List.elem_iff.mp hc)
      exact ⟨hns, by rw [List.find?_cons_of_neg _ (by simpa using hne), hfind]⟩
    · rw [dedupByTime, if_neg hc] at h
      rcases List.mem_cons.mp h with rfl | h2
      · exact ⟨fun hm => hc (List.elem_iff.mpr hm),
          by rw [List.find?_cons_of_pos _ (by simp)]⟩
      · obtain ⟨hns, hfind⟩ := ih _ h2
        have hne : q.time ≠ r.time := fun he => hns (by simp [← he])
        refine ⟨fun hm => hns (by simp [hm]), ?_⟩
        rw [List.find?_cons_of_neg _ (by simpa using hne), hfind]

theorem nodup_times_dedupByTime (l : List Srow) (seen : List Nat) :
    ((dedupByTime l seen).map Srow.time).Nodup := by
  induction l generalizing seen with
  | nil => simp [dedupByTime]
  | cons r rs ih =>
    by_cases hc : seen.contains r.time
    · rw [dedupByTime, if_pos hc]; exact ih seen
    · rw [dedupByTime, if_neg hc, List.map_cons, List.nodup_cons]
      refine ⟨fun hm => ?_, ih _⟩
      exact ((mem_times_dedupByTime rs (r.time :: seen) r.time).mp hm).2 (by simp)

theorem filter_timeEq_sortSrows (rs : List Srow) (t : Nat) :
    (sortSrows rs).filter (fun q => q.time == t)
      = rs.filter (fun q => q.time == t) := by
  have hall : ∀ a ∈ rs.filter (fun q => q.time == t), a.time = t := by
    intro a ha
    simpa using (List.mem_filter.mp ha).2
  have hpair : (rs.filter (fun q => q.time == t)).Pairwise srowLE := by
    refine List.pairwise_of_forall_mem_list (fun a ha b hb => ?_)
    show a.time ≤ b.time
    rw [hall a ha, hall b hb]
  have hsub : (rs.filter (fun q => q.time == t)).Sublist (sortSrows rs) :=
    List.sublist_insertionSort hpair (List.filter_sublist rs)
  have hsub2 : (rs.filter (fun q => q.time == t)).Sublist
      ((sortSrows rs).filter (fun q => q.time == t)) := by
    have := hsub.filter (fun q => q.time == t)
    rwa [List.filter_eq_self.mpr (fun a ha => by simp [hall a ha])] at this
  have hperm : ((sortSrows rs).filter (fun q => q.time == t)).Perm
      (rs.filter (fun q => q.time == t)) :=
    (List.perm_insertionSort srowLE rs).filter _
  exact (hsub2.eq_of_length hperm.length_eq.symm).symm

theorem find?_timeEq_sortSrows (rs : List Srow) (t : Nat) :
    (sortSrows rs).find? (fun q => q.time == t)
      = rs.find? (fun q => q.time == t) := by
  rw [find?_eq_head?_filterP, find?_eq_head?_filterP, filter_timeEq_sortSrows]

theorem mem_sortSrows (rs : List Srow) (r : Srow) :
    r ∈ sortSrows rs ↔ r ∈ rs :=
  (List.perm_insertionSort srowLE rs).mem_iff

theorem times_sortSrows_perm (rs : List Srow) :
    ((sortSrows rs).map Srow.time).Perm (rs.map Srow.time) :=
  (List.perm_insertionSort srowLE rs).map _

/-- Membership in the cleaned rows: a timestamp survives the cleaning tail
iff some parsed row carried it. -/
theorem mem_times_cleanRows (parsed : List PRow) (t : Nat) :
    t ∈ (cleanRows parsed).map Srow.time ↔ some t ∈ parsed.map PRow.ptime := by
  rw [cleanRows, (times_sortSrows_perm _).mem_iff, mem_times_dedupByTime,
    mem_times_dropnaTime]
  simp [coerceRow]

theorem nodup_times_cleanRows (parsed : List PRow) :
    ((cleanRows parsed).map Srow.time).Nodup :=
  ((times_sortSrows_perm _).nodup_iff).mpr (nodup_times_dedupByTime _ _)

theorem sorted_times_cleanRows (parsed : List PRow) :
    ((cleanRows parsed).map Srow.time).Sorted (· < ·) := by
  have hle : ((cleanRows parsed).map Srow.time).Sorted (· ≤ ·) := by
    refine List.Pairwise.map Srow.time (fun a b hab => hab) ?_
    exact List.sorted_insertionSort srowLE _
  have hnd : ((cleanRows parsed).map Srow.time).Nodup := nodup_times_cleanRows parsed
  exact (hle.and hnd).imp (fun h => lt_of_le_of_ne h.1 h.2)

theorem parseCellTotal_eq_some (c : TimeCell) (t : Nat) :
    parseCellTotal c = some t ↔ c = .valid t := by
  cases c <;> simp [parseCellTotal]

theorem mem_times_cleanRows_raw (rows : List RawRow) (t : Nat) :
    t ∈ (cleanRows (parseRowsTotal rows)).map Srow.time ↔
      ∃ r ∈ rows, parseCellTotal r.time = some t := by
  rw [mem_times_cleanRows]
  simp [parseRowsTotal]

/-- C2 (counterexample): an individually unparsable (non-null) timestamp
entry IS fatal — `pd.to_datetime` uses its default `errors="raise"`, so
`load_trends_csv` raises instead of dropping the row. -/
theorem unparsable_timestamp_is_fatal :
    load_trends_csv "time_series_a.csv"
      ⟨["Time", "jeans"],
       [⟨.valid 0, [.num 5]⟩, ⟨.malformed "not a date", [.num 7]⟩]⟩
      = .error (.unparsableTimestamp "time_series_a.csv" "not a date") := by
  decide

/-- C2 (amended): on a table with a `Time` column, exactly one value column
and no malformed (raising) timestamp cell, normalization succeeds and a
timestamp appears in the output iff some input row parses to it; in
particular every row whose timestamp parses to null is dropped and no row
with a null timestamp is retained. -/
theorem normalize_drops_null_timestamps (file : String) (tbl : RawTable)
    (vc : String)
    (h1 : (tbl.header.map pyStrip).contains "Time" = true)
    (h2 : (tbl.header.map pyStrip).filter (fun c => c ≠ "Time") = [vc])
    (h3 : NoMalformedTimes tbl) :
    ∃ s, load_trends_csv file tbl = .ok s ∧
      ∀ t : Nat, t ∈ s.rows.map Srow.time ↔
        ∃ r ∈ tbl.rows, parseCellTotal r.time = some t :=
  ⟨_, load_trends_csv_ok file tbl vc h1 h2 h3,
    fun t => mem_times_cleanRows_raw tbl.rows t⟩

theorem normalize_drops_null_timestamps_witness :
    ((⟨["Time", "jeans"],
      [⟨.valid 3, [.num 10]⟩, ⟨.missing, [.num 5]⟩]⟩ : RawTable).header.map
        pyStrip).contains "Time" = true ∧
    ∃ s, load_trends_csv "time_series_a.csv"
        ⟨["Time", "jeans"], [⟨.valid 3, [.num 10]⟩, ⟨.missing, [.num 5]⟩]⟩
        = .ok s ∧
      ∀ t : Nat, t ∈ s.rows.map Srow.time ↔
        ∃ r ∈ (⟨["Time", "jeans"],
          [⟨.valid 3, [.num 10]⟩, ⟨.missing, [.num 5]⟩]⟩ : RawTable).rows,
          parseCellTotal r.time = some t :=
  ⟨by decide,
    normalize_drops_null_timestamps "time_series_a.csv"
      ⟨["Time", "jeans"], [⟨.valid 3, [.num 10]⟩, ⟨.missing, [.num 5]⟩]⟩
      "jeans" (by decide) (by decide) (by simp [NoMalformedTimes])⟩

/-- C8 (confirmed): on any table with a `Time` column, exactly one value
column and no malformed timestamp cell — with the value cells arbitrary —
coercion never raises: normalization succeeds, every non-numeric value token
coerces to null, every row with a parseable timestamp keeps its timestamp in
the output (rows are never dropped for their value), and every output value
is the coercion of an input value cell. -/
theorem value_coercion_never_fatal (file : String) (tbl : RawTable)
    (vc : String)
    (h1 : (tbl.header.map pyStrip).contains "Time" = true)
    (h2 : (tbl.header.map pyStrip).filter (fun c => c ≠ "Time") = [vc])
    (h3 : NoMalformedTimes tbl) :
    ∃ s, load_trends_csv file tbl = .ok s ∧
      (∀ str : String, toNumericCell (.token str) = none) ∧
      (∀ r ∈ tbl.rows, ∀ t, r.time = .valid t → t ∈ s.rows.map Srow.time) ∧
      (∀ q ∈ s.rows, ∃ r ∈ tbl.rows, r.time = .valid q.time ∧
        q.value = toNumericCell (r.vals.headD (.token ""))) := by
  refine ⟨_, load_trends_csv_ok file tbl vc h1 h2 h3, fun _ => rfl, ?_, ?_⟩
  · intro r hr t ht
    exact (mem_times_cleanRows_raw tbl.rows t).mpr
      ⟨r, hr, by rw [ht]; rfl⟩
  · intro q hq
    rw [cleanRows, mem_sortSrows] at hq
    have hq2 := mem_of_mem_dedupByTime _ _ _ hq
    rw [mem_dropnaTime] at hq2
    simp only [List.mem_map, parseRowsTotal, coerceRow] at hq2
    obtain ⟨p, ⟨r, hr, rfl⟩, hpq⟩ := hq2
    have h1 : parseCellTotal r.time = some q.time := by
      simpa using congrArg Prod.fst hpq
    have h2 : toNumericCell (r.vals.headD (.token "")) = q.value := by
      simpa using congrArg Prod.snd hpq
    exact ⟨r, hr, (parseCellTotal_eq_some _ _).mp h1, h2.symm⟩

theorem value_coercion_never_fatal_witness :
    ((⟨["Time", "jeans"],
      [⟨.valid 3, [.token "N/A"]⟩, ⟨.valid 4, [.num 9]⟩]⟩ : RawTable).header.map
        pyStrip).contains "Time" = true ∧
    ∃ s, load_trends_csv "time_series_a.csv"
        ⟨["Time", "jeans"], [⟨.valid 3, [.token "N/A"]⟩, ⟨.valid 4, [.num 9]⟩]⟩
        = .ok s ∧
      (∀ str : String, toNumericCell (.token str) = none) ∧
      (∀ r ∈ (⟨["Time", "jeans"],
          [⟨.valid 3, [.token "N/A"]⟩, ⟨.valid 4, [.num 9]⟩]⟩ : RawTable).rows,
        ∀ t, r.time = .valid t → t ∈ s.rows.map Srow.time) ∧
      (∀ q ∈ s.rows, ∃ r ∈ (⟨["Time", "jeans"],
          [⟨.valid 3, [.token "N/A"]⟩, ⟨.valid 4, [.num 9]⟩]⟩ : RawTable).rows,
        r.time = .valid q.time ∧
        q.value = toNumericCell (r.vals.headD (.token ""))) :=
  ⟨by decide,
    value_coercion_never_fatal "time_series_a.csv"
      ⟨["Time", "jeans"], [⟨.valid 3, [.token "N/A"]⟩, ⟨.valid 4, [.num 9]⟩]⟩
      "jeans" (by decide) (by decide) (by simp [NoMalformedTimes])⟩

/-- C4 (confirmed): on any table with a `Time` column, exactly one value
column and no malformed timestamp cell (in particular any table with
duplicate timestamps), normalization keeps exactly one row per
duplicate-timestamp group — output timestamps are unique, every parsed
timestamp is still represented — and the kept row is the first row bearing
its timestamp in the ascending stable sort of the cleaned rows (pandas
`drop_duplicates` keeps the first occurrence in file order, and a stable
ascending sort preserves which row of each group comes first); the output
itself is sorted strictly ascending by timestamp, densely reindexed. -/
theorem dedup_keeps_first_after_sort (file : String) (tbl : RawTable)
    (vc : String)
    (h1 : (tbl.header.map pyStrip).contains "Time" = true)
    (h2 : (tbl.header.map pyStrip).filter (fun c => c ≠ "Time") = [vc])
    (h3 : NoMalformedTimes tbl) :
    ∃ s, load_trends_csv file tbl = .ok s ∧
      (s.rows.map Srow.time).Nodup ∧
      (s.rows.map Srow.time).Sorted (· < ·) ∧
      (∀ t, t ∈ s.rows.map Srow.time ↔
        ∃ r ∈ tbl.rows, parseCellTotal r.time = some t) ∧
      (∀ q ∈ s.rows,
        (sortSrows (dropnaTime ((parseRowsTotal tbl.rows).map coerceRow))).find?
          (fun p => p.time == q.time) = some q) := by
  refine ⟨_, load_trends_csv_ok file tbl vc h1 h2 h3,
    nodup_times_cleanRows _, sorted_times_cleanRows _,
    fun t => mem_times_cleanRows_raw tbl.rows t, ?_⟩
  intro q hq
  rw [cleanRows, mem_sortSrows] at hq
  rw [find?_timeEq_sortSrows]
  exact (dedupByTime_keeps_first _ _ _ hq).2

theorem dedup_keeps_first_after_sort_witness :
    ((⟨["Time", "jeans"],
      [⟨.valid 3, [.num 10]⟩, ⟨.valid 1, [.num 4]⟩, ⟨.valid 3, [.num 7]⟩]⟩ :
        RawTable).header.map pyStrip).contains "Time" = true ∧
    ∃ s, load_trends_csv "time_series_a.csv"
        ⟨["Time", "jeans"],
         [⟨.valid 3, [.num 10]⟩, ⟨.valid 1, [.num 4]⟩, ⟨.valid 3, [.num 7]⟩]⟩
        = .ok s ∧
      (s.rows.map Srow.time).Nodup ∧
      (s.rows.map Srow.time).Sorted (· < ·) ∧
      (∀ t, t ∈ s.rows.map Srow.time ↔
        ∃ r ∈ (⟨["Time", "jeans"],
          [⟨.valid 3, [.num 10]⟩, ⟨.valid 1, [.num 4]⟩, ⟨.valid 3, [.num 7]⟩]⟩ :
            RawTable).rows, parseCellTotal r.time = some t) ∧
      (∀ q ∈ s.rows,
        (sortSrows (dropnaTime ((parseRowsTotal (⟨["Time", "jeans"],
          [⟨.valid 3, [.num 10]⟩, ⟨.valid 1, [.num 4]⟩, ⟨.valid 3, [.num 7]⟩]⟩ :
            RawTable).rows).map coerceRow))).find?
          (fun p => p.time == q.time) = some q) :=
  ⟨by decide,
    dedup_keeps_first_after_sort "time_series_a.csv"
      ⟨["Time", "jeans"],
       [⟨.valid 3, [.num 10]⟩, ⟨.valid 1, [.num 4]⟩, ⟨.valid 3, [.num 7]⟩]⟩
      "jeans" (by decide) (by decide) (by simp [NoMalformedTimes])⟩

/-! ### Lemmas about the merge fold -/

theorem length_filter_timeEq_of_nodup (rows : List Srow)
    (h : (rows.map Srow.time).Nodup) (t : Nat) :
    (rows.filter (fun q => q.time == t)).length
      = if t ∈ rows.map Srow.time then 1 else 0 := by
  induction rows with
  | nil => simp
  | cons q qs ih =>
    rw [List.map_cons, List.nodup_cons] at h
    by_cases hqt : q.time = t
    · subst hqt
      rw [List.filter_cons_of_pos (by simp)]
      have hnil : qs.filter (fun p => p.time == q.time) = [] :=
        List.filter_eq_nil_iff.mpr (fun p hp => by
          simp only [beq_iff_eq]
          exact fun he => h.1 (he ▸ List.mem_map_of_mem Srow.time hp))
      simp [hnil]
    · rw [List.filter_cons_of_neg (by simpa using hqt), ih h.2, List.map_cons]
      have hmm : (t ∈ q.time :: qs.map Srow.time) = (t ∈ qs.map Srow.time) := by
        simp only [List.mem_cons]
        exact propext (or_iff_right (fun he => hqt he.symm))
      simp only [hmm]

theorem times_mergeStep (acc : List Mrow) (s : CanonicalSeries)
    (hs : (s.rows.map Srow.time).Nodup) :
    (mergeStep acc s).map Mrow.time
      = (acc.map Mrow.time).filter (fun t => (s.rows.map Srow.time).contains t) := by
  induction acc with
  | nil => rfl
  | cons r rs ih =>
    rw [mergeStep, List.flatMap_cons, List.map_append]
    have hms : (rs.flatMap fun r =>
        (s.rows.filter (fun q => q.time == r.time)).map
          (fun q => (⟨r.time, r.vals ++ [q.value]⟩ : Mrow))) = mergeStep rs s := rfl
    rw [hms, ih, List.map_cons, List.filter_cons]
    have hconst : ((s.rows.filter (fun q => q.time == r.time)).map
        (fun q => (⟨r.time, r.vals ++ [q.value]⟩ : Mrow))).map Mrow.time
        = List.replicate (s.rows.filter (fun q => q.time == r.time)).length r.time := by
      rw [List.map_map]
      exact List.map_const' _ r.time
    by_cases hmem : r.time ∈ s.rows.map Srow.time
    · rw [if_pos (by simpa using List.elem_iff.mpr hmem)]
      rw [hconst, length_filter_timeEq_of_nodup s.rows hs, if_pos hmem]
      rfl
    · rw [if_neg (by simpa using hmem)]
      rw [hconst, length_filter_timeEq_of_nodup s.rows hs, if_neg hmem]
      rfl

theorem mem_times_foldl_mergeStep (rest : List CanonicalSeries)
    (acc : List Mrow) (hu : ∀ s ∈ rest, (s.rows.map Srow.time).Nodup) (t : Nat) :
    t ∈ (rest.foldl mergeStep acc).map Mrow.time ↔
      t ∈ acc.map Mrow.time ∧ ∀ s ∈ rest, t ∈ s.rows.map Srow.time := by
  induction rest generalizing acc with
  | nil => simp
  | cons s ss ih =>
    rw [List.foldl_cons, ih _ (fun q hq => hu q (by simp [hq]))]
    rw [times_mergeStep acc s (hu s (by simp)), List.mem_filter]
    simp only [List.forall_mem_cons, List.elem_iff]
    tauto

theorem nodup_times_foldl_mergeStep (rest : List CanonicalSeries)
    (acc : List Mrow) (hacc : (acc.map Mrow.time).Nodup)
    (hu : ∀ s ∈ rest, (s.rows.map Srow.time).Nodup) :
    ((rest.foldl mergeStep acc).map Mrow.time).Nodup := by
  induction rest generalizing acc with
  | nil => exact hacc
  | cons s ss ih =>
    rw [List.foldl_cons]
    refine ih _ ?_ (fun q hq => hu q (by simp [hq]))
    rw [times_mergeStep acc s (hu s (by simp))]
    exact hacc.filter _

theorem times_initMerged (d0 : CanonicalSeries) :
    (initMerged d0).map Mrow.time = d0.rows.map Srow.time := by
  rw [initMerged, List.map_map]
  rfl

theorem times_mergeAll_perm (d0 : CanonicalSeries) (rest : List CanonicalSeries) :
    ((mergeAll d0 rest).map Mrow.time).Perm
      ((rest.foldl mergeStep (initMerged d0)).map Mrow.time) :=
  (List.perm_insertionSort mrowLE _).map _

theorem mem_times_mergeAll (d0 : CanonicalSeries) (rest : List CanonicalSeries)
    (hu : ∀ s ∈ d0 :: rest, (s.rows.map Srow.time).Nodup) (t : Nat) :
    t ∈ (mergeAll d0 rest).map Mrow.time ↔
      ∀ s ∈ d0 :: rest, t ∈ s.rows.map Srow.time := by
  rw [(times_mergeAll_perm d0 rest).mem_iff,
    mem_times_foldl_mergeStep rest _ (fun q hq => hu q (by simp [hq])),
    times_initMerged, List.forall_mem_cons]

theorem nodup_times_mergeAll (d0 : CanonicalSeries) (rest : List CanonicalSeries)
    (hu : ∀ s ∈ d0 :: rest, (s.rows.map Srow.time).Nodup) :
    ((mergeAll d0 rest).map Mrow.time).Nodup := by
  refine ((times_mergeAll_perm d0 rest).nodup_iff).mpr ?_
  refine nodup_times_foldl_mergeStep rest _ ?_ (fun q hq => hu q (by simp [hq]))
  rw [times_initMerged]
  exact hu d0 (by simp)

theorem sorted_times_mergeAll (d0 : CanonicalSeries) (rest : List CanonicalSeries)
    (hu : ∀ s ∈ d0 :: rest, (s.rows.map Srow.time).Nodup) :
    ((mergeAll d0 rest).map Mrow.time).Sorted (· < ·) := by
  have hle : ((mergeAll d0 rest).map Mrow.time).Sorted (· ≤ ·) := by
    refine List.Pairwise.map Mrow.time (fun a b hab => hab) ?_
    exact List.sorted_insertionSort mrowLE _
  exact (hle.and (nodup_times_mergeAll d0 rest hu)).imp
    (fun h => lt_of_le_of_ne h.1 h.2)

/-- C1 (confirmed): for a non-empty sequence of canonical series with unique
timestamps, a timestamp is in the merged table iff it is in every input
series (the set intersection), and the merged timestamps are sorted strictly
ascending. -/
theorem merge_times_intersection (d0 : CanonicalSeries)
    (rest : List CanonicalSeries)
    (hu : ∀ s ∈ d0 :: rest, (s.rows.map Srow.time).Nodup) :
    (∀ t, t ∈ (mergeAll d0 rest).map Mrow.time ↔
      ∀ s ∈ d0 :: rest, t ∈ s.rows.map Srow.time) ∧
    ((mergeAll d0 rest).map Mrow.time).Sorted (· < ·) :=
  ⟨fun t => mem_times_mergeAll d0 rest hu t, sorted_times_mergeAll d0 rest hu⟩

theorem merge_times_intersection_witness :
    (∀ s ∈ [(⟨"A", [⟨0, some 1⟩, ⟨1, some 2⟩, ⟨2, some 3⟩]⟩ : CanonicalSeries),
        ⟨"B", [⟨1, some 10⟩, ⟨2, some 20⟩, ⟨3, some 30⟩]⟩],
      (s.rows.map Srow.time).Nodup) ∧
    ((∀ t, t ∈ (mergeAll ⟨"A", [⟨0, some 1⟩, ⟨1, some 2⟩, ⟨2, some 3⟩]⟩
        [⟨"B", [⟨1, some 10⟩, ⟨2, some 20⟩, ⟨3, some 30⟩]⟩]).map Mrow.time ↔
      ∀ s ∈ [(⟨"A", [⟨0, some 1⟩, ⟨1, some 2⟩, ⟨2, some 3⟩]⟩ : CanonicalSeries),
        ⟨"B", [⟨1, some 10⟩, ⟨2, some 20⟩, ⟨3, some 30⟩]⟩],
        t ∈ s.rows.map Srow.time) ∧
    ((mergeAll ⟨"A", [⟨0, some 1⟩, ⟨1, some 2⟩, ⟨2, some 3⟩]⟩
        [⟨"B", [⟨1, some 10⟩, ⟨2, some 20⟩, ⟨3, some 30⟩]⟩]).map
          Mrow.time).Sorted (· < ·)) :=
  ⟨by decide,
    merge_times_intersection ⟨"A", [⟨0, some 1⟩, ⟨1, some 2⟩, ⟨2, some 3⟩]⟩
      [⟨"B", [⟨1, some 10⟩, ⟨2, some 20⟩, ⟨3, some 30⟩]⟩] (by decide)⟩

theorem vals_length_foldl_mergeStep (rest : List CanonicalSeries)
    (acc : List Mrow) (n : Nat) (hacc : ∀ r ∈ acc, r.vals.length = n) :
    ∀ r ∈ rest.foldl mergeStep acc, r.vals.length = n + rest.length := by
  induction rest generalizing acc n with
  | nil => simpa using hacc
  | cons s ss ih =>
    rw [List.foldl_cons]
    intro r hr
    have hstep : ∀ r2 ∈ mergeStep acc s, r2.vals.length = n + 1 := by
      intro r2 hr2
      rw [mergeStep, List.mem_flatMap] at hr2
      obtain ⟨a, ha, hr2⟩ := hr2
      rw [List.mem_map] at hr2
      obtain ⟨q, _, rfl⟩ := hr2
      simp [hacc a ha]
    have := ih (mergeStep acc s) (n + 1) hstep r hr
    rw [this, List.length_cons]
    omega

/-- C5 (confirmed): for a merge of a non-empty sequence of canonical series
with unique timestamps, the merged row count is at most every input's row
count (hence at most the minimum), and every merged row carries exactly one
value per input series — i.e. the merged table has one timestamp column plus
N value columns. -/
theorem merge_shape (d0 : CanonicalSeries) (rest : List CanonicalSeries)
    (hu : ∀ s ∈ d0 :: rest, (s.rows.map Srow.time).Nodup) :
    (∀ s ∈ d0 :: rest, (mergeAll d0 rest).length ≤ s.rows.length) ∧
    (∀ r ∈ mergeAll d0 rest, r.vals.length = (d0 :: rest).length) := by
  constructor
  · intro s hs
    have hsub : (mergeAll d0 rest).map Mrow.time ⊆ s.rows.map Srow.time := by
      intro t ht
      exact (mem_times_mergeAll d0 rest hu t).mp ht s hs
    have hnd := nodup_times_mergeAll d0 rest hu
    have hlen := (hnd.subperm hsub).length_le
    simpa using hlen
  · intro r hr
    have hmem : r ∈ (rest.foldl mergeStep (initMerged d0)) :=
      (List.perm_insertionSort mrowLE _).mem_iff.mp hr
    have hinit : ∀ q ∈ initMerged d0, q.vals.length = 1 := by
      intro q hq
      rw [initMerged, List.mem_map] at hq
      obtain ⟨p, _, rfl⟩ := hq
      rfl
    have := vals_length_foldl_mergeStep rest (initMerged d0) 1 hinit r hmem
    rw [this, List.length_cons]
    omega

theorem merge_shape_witness :
    (∀ s ∈ [(⟨"A", [⟨0, some 1⟩, ⟨1, some 2⟩, ⟨2, some 3⟩]⟩ : CanonicalSeries),
        ⟨"B", [⟨1, some 10⟩, ⟨2, some 20⟩, ⟨3, some 30⟩]⟩],
      (s.rows.map Srow.time).Nodup) ∧
    ((∀ s ∈ [(⟨"A", [⟨0, some 1⟩, ⟨1, some 2⟩, ⟨2, some 3⟩]⟩ : CanonicalSeries),
        ⟨"B", [⟨1, some 10⟩, ⟨2, some 20⟩, ⟨3, some 30⟩]⟩],
      (mergeAll ⟨"A", [⟨0, some 1⟩, ⟨1, some 2⟩, ⟨2, some 3⟩]⟩
        [⟨"B", [⟨1, some 10⟩, ⟨2, some 20⟩, ⟨3, some 30⟩]⟩]).length
          ≤ s.rows.length) ∧
    (∀ r ∈ mergeAll ⟨"A", [⟨0, some 1⟩, ⟨1, some 2⟩, ⟨2, some 3⟩]⟩
        [⟨"B", [⟨1, some 10⟩, ⟨2, some 20⟩, ⟨3, some 30⟩]⟩],
      r.vals.length = ([(⟨"A", [⟨0, some 1⟩, ⟨1, some 2⟩, ⟨2, some 3⟩]⟩ :
        CanonicalSeries),
        ⟨"B", [⟨1, some 10⟩, ⟨2, some 20⟩, ⟨3, some 30⟩]⟩]).length)) :=
  ⟨by decide,
    merge_shape ⟨"A", [⟨0, some 1⟩, ⟨1, some 2⟩, ⟨2, some 3⟩]⟩
      [⟨"B", [⟨1, some 10⟩, ⟨2, some 20⟩, ⟨3, some 30⟩]⟩] (by decide)⟩

/-! ### Pipeline-level claims -/

/-- C3 (code bug): a directory of four matching files in which the first two
series share no timestamp.  The merge itself yields an empty table without
error, but the whole run then aborts inside the continuity check —
`pd.date_range(merged["Time"].min(), merged["Time"].max(), freq="MS")`
raises `ValueError` because `min`/`max` of an empty column are `NaT` — so
neither output file is written, contradicting the script's own comment
"(Won't crash your code; just prints warning if gaps exist.)". -/
theorem disjoint_series_abort_run :
    run [⟨"time_series_a.csv", ⟨["Time", "jeans"],
          [⟨.valid 0, [.num 10]⟩, ⟨.valid 1, [.num 20]⟩]⟩⟩,
         ⟨"time_series_b.csv", ⟨["Time", "coats"],
          [⟨.valid 2, [.num 30]⟩, ⟨.valid 3, [.num 40]⟩]⟩⟩,
         ⟨"time_series_c.csv", ⟨["Time", "hats"], [⟨.valid 0, [.num 1]⟩]⟩⟩,
         ⟨"time_series_d.csv", ⟨["Time", "boots"], [⟨.valid 0, [.num 2]⟩]⟩⟩]
      = .error .emptyDateRange := by
  decide

/-- C10 (code bug): the continuity check is not purely observational on
every merged table — on the empty merged table it aborts the run
(`pd.date_range` raises on `NaT` bounds) instead of warning. -/
theorem continuity_check_aborts_on_empty :
    continuityCheck [] = .error .emptyDateRange := by
  decide

/-- C9 (confirmed): with fewer than 4 matching input files the run aborts
with `InsufficientInputFiles` reporting the expected count (4), the actual
count and the names of the files found; the error is raised before any
normalization, merge or output, and an aborted run carries no outputs (the
model's outputs exist only in the `ok` payload). -/
theorem insufficient_files_aborts (dir : List FileEntry)
    (h : (dir.filter (fun f => globTimeSeriesCsv f.name)).length < 4) :
    run dir = .error (.insufficientInputFiles 4
      (dir.filter (fun f => globTimeSeriesCsv f.name)).length
      ((dir.filter (fun f => globTimeSeriesCsv f.name)).map FileEntry.name)) := by
  unfold run
  rw [if_pos h]
  rfl

theorem insufficient_files_aborts_witness :
    (([⟨"time_series_a.csv", ⟨["Time", "jeans"], []⟩⟩,
       ⟨"notes.txt", ⟨["Time", "coats"], []⟩⟩] : List FileEntry).filter
        (fun f => globTimeSeriesCsv f.name)).length < 4 ∧
    run [⟨"time_series_a.csv", ⟨["Time", "jeans"], []⟩⟩,
         ⟨"notes.txt", ⟨["Time", "coats"], []⟩⟩]
      = .error (.insufficientInputFiles 4 1 ["time_series_a.csv"]) :=
  ⟨by decide, by
    have := insufficient_files_aborts
      [⟨"time_series_a.csv", ⟨["Time", "jeans"], []⟩⟩,
       ⟨"notes.txt", ⟨["Time", "coats"], []⟩⟩] (by decide)
    simpa using this⟩

/-! ### The long-format derivation -/

theorem length_melt (names : List String) (rows : List Mrow) :
    (melt names rows).length = rows.length * names.length := by
  rw [melt, List.length_flatMap]
  have hmap : (List.range names.length).map
      (List.length ∘ fun i => rows.map (fun r =>
        (⟨r.time, names.getD i "", r.vals.getD i none⟩ : Lrow)))
      = List.replicate names.length rows.length := by
    rw [show (List.length ∘ fun i => rows.map (fun r =>
      (⟨r.time, names.getD i "", r.vals.getD i none⟩ : Lrow)))
      = fun _ => rows.length from funext (fun i => by simp)]
    rw [List.map_const', List.length_range]
  rw [hmap, List.sum_replicate, smul_eq_mul, Nat.mul_comm]

theorem getElem?_flatten_uniform {β : Type} (L : List (List β)) (m i j : Nat)
    (hL : ∀ l ∈ L, l.length = m) (hj : j < m) :
    L.flatten[i * m + j]? = L[i]?.bind (fun l => l[j]?) := by
  induction L generalizing i with
  | nil => simp
  | cons l L ih =>
    have hl : l.length = m := hL l (by simp)
    cases i with
    | zero =>
      rw [List.flatten_cons, List.getElem?_append_left (by omega)]
      simp
    | succ i =>
      rw [List.flatten_cons, List.getElem?_append_right (by
        rw [hl]
        calc m ≤ (i + 1) * m := Nat.le_mul_of_pos_left m (by omega)
        _ ≤ (i + 1) * m + j := Nat.le_add_right _ _)]
      have harith : (i + 1) * m + j - l.length = i * m + j := by
        rw [hl, Nat.succ_mul]
        omega
      rw [harith, ih i (fun q hq => hL q (by simp [hq]))]
      simp

/-- C6 (counterexample): the code's `melt` enumerates metric-column outer /
row inner (pandas stacks one value column after another), not row outer /
metric inner as the claim's enumeration order states; the two orders differ
already on a 2×2 merged table. -/
theorem melt_not_row_major :
    melt ["A", "B"] [⟨0, [some 1, some 2]⟩, ⟨1, [some 3, some 4]⟩]
      ≠ meltRowMajorSpec ["A", "B"] [⟨0, [some 1, some 2]⟩, ⟨1, [some 3, some 4]⟩] := by
  decide

/-- C6 (amended): the long table has exactly one (timestamp, metric, value)
tuple per (row, metric column) pair — its length is merged rows × metric
count — but the enumeration is column-major: tuple number `i * rows + j`
comes from metric column `i` and merged row `j` (metric-column order outer,
original row order inner). -/
theorem melt_is_column_major (names : List String) (rows : List Mrow) :
    (melt names rows).length = rows.length * names.length ∧
    ∀ i j, i < names.length → j < rows.length →
      (melt names rows)[i * rows.length + j]? =
        some ⟨(rows.getD j ⟨0, []⟩).time, names.getD i "",
          (rows.getD j ⟨0, []⟩).vals.getD i none⟩ := by
  refine ⟨length_melt names rows, ?_⟩
  intro i j hi hj
  rw [melt, List.flatMap_def]
  rw [getElem?_flatten_uniform _ rows.length i j
    (fun l hl => by
      rw [List.mem_map] at hl
      obtain ⟨k, _, rfl⟩ := hl
      simp) hj]
  rw [List.getElem?_map, List.getElem?_range hi]
  rw [show (rows.getD j ⟨0, []⟩) = rows[j] from List.getD_eq_getElem rows _ hj]
  simp [List.getElem?_eq_getElem hj]

theorem melt_is_column_major_witness :
    (0 : Nat) < 2 ∧ (1 : Nat) < 2 ∧
    (melt ["A", "B"] [⟨0, [some 1, some 2]⟩, ⟨1, [some 3, some 4]⟩])[0 * 2 + 1]?
      = some ⟨1, "A", some 3⟩ :=
  ⟨by decide, by decide, by
    have := (melt_is_column_major ["A", "B"]
      [⟨0, [some 1, some 2]⟩, ⟨1, [some 3, some 4]⟩]).2 0 1 (by decide) (by decide)
    simpa using this⟩

/-! ### The round-trip between wide and long tables -/

theorem dedupFirst_append_of_nodup {α : Type} [BEq α] [LawfulBEq α]
    (ts : List α) (rest seen : List α) (h1 : ts.Nodup)
    (h2 : ∀ x ∈ ts, x ∉ seen) :
    dedupFirst (ts ++ rest) seen = ts ++ dedupFirst rest (ts.reverse ++ seen) := by
  induction ts generalizing seen with
  | nil => simp
  | cons a ts ih =>
    rw [List.cons_append, dedupFirst,
      if_neg (by simpa using h2 a (by simp))]
    rw [List.nodup_cons] at h1
    rw [ih (a :: seen) h1.2 (fun x hx => by
      simp only [List.mem_cons]
      push_neg
      exact ⟨fun he => h1.1 (he ▸ hx), h2 x (by simp [hx])⟩)]
    rw [List.cons_append, List.reverse_cons, List.append_assoc]
    simp

theorem dedupFirst_eq_nil {α : Type} [BEq α] [LawfulBEq α]
    (rest seen : List α) (h : ∀ x ∈ rest, x ∈ seen) :
    dedupFirst rest seen = [] := by
  induction rest with
  | nil => rfl
  | cons a rest ih =>
    rw [dedupFirst, if_pos (by simpa using h a (by simp))]
    exact ih (fun x hx => h x (by simp [hx]))

theorem dedupFirst_replicate_mem {α : Type} [BEq α] [LawfulBEq α]
    (k : Nat) (v : α) (rest seen : List α) (h : v ∈ seen) :
    dedupFirst (List.replicate k v ++ rest) seen = dedupFirst rest seen := by
  induction k with
  | zero => rfl
  | succ k ih =>
    rw [List.replicate_succ, List.cons_append, dedupFirst,
      if_pos (by simpa using h)]
    exact ih

theorem dedupFirst_flatMap_replicate {α : Type} [BEq α] [LawfulBEq α]
    (vs : List α) (m : Nat) (hm : 0 < m) (seen : List α) (h1 : vs.Nodup)
    (h2 : ∀ v ∈ vs, v ∉ seen) :
    dedupFirst (vs.flatMap (fun v => List.replicate m v)) seen = vs := by
  induction vs generalizing seen with
  | nil => rfl
  | cons v vs ih =>
    rw [List.nodup_cons] at h1
    obtain ⟨k, rfl⟩ : ∃ k, m = k + 1 := ⟨m - 1, by omega⟩
    rw [List.flatMap_cons, List.replicate_succ, List.cons_append, dedupFirst,
      if_neg (by simpa using h2 v (by simp))]
    rw [dedupFirst_replicate_mem k v _ _ (by simp)]
    rw [ih (v :: seen) h1.2 (fun x hx => by
      simp only [List.mem_cons]
      push_neg
      exact ⟨fun he => h1.1 (he ▸ hx), h2 x (by simp [hx])⟩)]

theorem melt_map_time (names : List String) (rows : List Mrow) :
    (melt names rows).map Lrow.time
      = (List.range names.length).flatMap (fun _ => rows.map Mrow.time) := by
  rw [melt, List.map_flatMap]
  refine congrArg _ (funext (fun i => ?_))
  rw [List.map_map]
  rfl

theorem melt_map_trend (names : List String) (rows : List Mrow) :
    (melt names rows).map Lrow.trend
      = (List.range names.length).flatMap
          (fun i => List.replicate rows.length (names.getD i "")) := by
  rw [melt, List.map_flatMap]
  refine congrArg _ (funext (fun i => ?_))
  rw [List.map_map]
  exact List.map_const' rows _

theorem map_range_getD {α : Type} (l : List α) (d : α) :
    (List.range l.length).map (fun i => l.getD i d) = l := by
  apply List.ext_getElem
  · simp
  · intro n h1 h2
    have hn : n < l.length := by simpa using h2
    rw [List.getElem_map, List.getElem_range]
    exact List.getD_eq_getElem l d hn

theorem times_pivot_melt (names : List String) (rows : List Mrow)
    (hne : names ≠ []) (ht : (rows.map Mrow.time).Nodup) :
    dedupFirst ((melt names rows).map Lrow.time) [] = rows.map Mrow.time := by
  rw [melt_map_time]
  obtain ⟨n, hn⟩ : ∃ n, names.length = n + 1 :=
    ⟨names.length - 1, by
      have := List.length_pos.mpr hne
      omega⟩
  rw [hn, List.range_succ_eq_map, List.flatMap_cons]
  rw [dedupFirst_append_of_nodup _ _ [] ht (by simp)]
  rw [dedupFirst_eq_nil _ _ (fun x hx => by
    rw [List.mem_flatMap] at hx
    obtain ⟨k, _, hxk⟩ := hx
    simp [hxk])]
  simp

theorem trends_pivot_melt (names : List String) (rows : List Mrow)
    (hn : names.Nodup) (hrne : rows ≠ []) :
    dedupFirst ((melt names rows).map Lrow.trend) [] = names := by
  rw [melt_map_trend]
  have hswap : (List.range names.length).flatMap
      (fun i => List.replicate rows.length (names.getD i ""))
      = names.flatMap (fun v => List.replicate rows.length v) := by
    conv_rhs => rw [← map_range_getD names ""]
    rw [List.flatMap_map]
  rw [hswap]
  exact dedupFirst_flatMap_replicate names rows.length
    (List.length_pos.mpr hrne) [] hn (by simp)

theorem find?_flatMap_single {α β : Type} (ks : List α) (f : α → List β)
    (p : β → Bool) (i : α) (hmem : i ∈ ks)
    (hnone : ∀ k ∈ ks, k ≠ i → (f k).find? p = none) :
    (ks.flatMap f).find? p = (f i).find? p := by
  induction ks with
  | nil => simp at hmem
  | cons k ks ih =>
    rw [List.flatMap_cons, List.find?_append]
    by_cases hk : k = i
    · subst hk
      cases hfi : (f k).find? p with
      | some x => rfl
      | none =>
        rw [Option.none_or]
        refine List.find?_eq_none.mpr (fun x hx => ?_)
        rw [List.mem_flatMap] at hx
        obtain ⟨k2, hk2, hxk⟩ := hx
        by_cases hk2i : k2 = k
        · subst hk2i
          exact List.find?_eq_none.mp hfi x hxk
        · exact List.find?_eq_none.mp (hnone k2 (by simp [hk2]) hk2i) x hxk
    · rw [hnone k (by simp) hk, Option.none_or]
      refine ih ?_ (fun k2 h2 hne => hnone k2 (by simp [h2]) hne)
      rcases List.mem_cons.mp hmem with heq | h
      · exact absurd heq.symm hk
      · exact h

theorem find?_timeEq_getD (rows : List Mrow)
    (ht : (rows.map Mrow.time).Nodup) (j : Nat) (hj : j < rows.length) :
    rows.find? (fun r => r.time == (rows.getD j ⟨0, []⟩).time)
      = some (rows.getD j ⟨0, []⟩) := by
  induction rows generalizing j with
  | nil => simp at hj
  | cons r rows ih =>
    rw [List.map_cons, List.nodup_cons] at ht
    cases j with
    | zero =>
      rw [show (r :: rows).getD 0 ⟨0, []⟩ = r from rfl]
      rw [List.find?_cons_of_pos _ (by simp)]
    | succ j =>
      have hj2 : j < rows.length := by simpa using hj
      rw [show (r :: rows).getD (j + 1) ⟨0, []⟩ = rows.getD j ⟨0, []⟩ from rfl]
      have hne : r.time ≠ (rows.getD j ⟨0, []⟩).time := by
        intro he
        refine ht.1 ?_
        rw [he, List.getD_eq_getElem rows _ hj2]
        exact List.mem_map_of_mem Mrow.time (rows.getElem_mem hj2)
      rw [List.find?_cons_of_neg _ (by simpa using hne), ih ht.2 j hj2]

theorem find?_melt_block (names : List String) (rows : List Mrow)
    (hn : names.Nodup) (ht : (rows.map Mrow.time).Nodup)
    (i j : Nat) (hi : i < names.length) (hj : j < rows.length) :
    (melt names rows).find? (fun x =>
        x.time == (rows.getD j ⟨0, []⟩).time && x.trend == names.getD i "")
      = some ⟨(rows.getD j ⟨0, []⟩).time, names.getD i "",
          (rows.getD j ⟨0, []⟩).vals.getD i none⟩ := by
  rw [melt]
  rw [find?_flatMap_single (List.range names.length) _ _ i
    (List.mem_range.mpr hi) (fun k hk hki => ?_)]
  · rw [List.find?_map]
    have hpred : ((fun x : Lrow =>
        x.time == (rows.getD j ⟨0, []⟩).time && x.trend == names.getD i "") ∘
        (fun r : Mrow => (⟨r.time, names.getD i "", r.vals.getD i none⟩ : Lrow)))
        = fun r : Mrow => r.time == (rows.getD j ⟨0, []⟩).time := by
      funext r
      simp
    rw [hpred, find?_timeEq_getD rows ht j hj]
    rfl
  · refine List.find?_eq_none.mpr (fun x hx => ?_)
    rw [List.mem_map] at hx
    obtain ⟨r, _, rfl⟩ := hx
    have hkn : k < names.length := List.mem_range.mp hk
    have hnames : names.getD k "" ≠ names.getD i "" := by
      rw [List.getD_eq_getElem names _ hkn, List.getD_eq_getElem names _ hi]
      intro he
      exact hki (hn.getElem_inj_iff.mp he)
    simp only [Bool.and_eq_true, beq_iff_eq, not_and]
    exact fun _ => hnames

/-- C7 (confirmed): reshaping a merged wide table (unique timestamps,
distinct metric names, one value per metric in each row, at least one
metric column) into the long table and pivoting back recovers the wide
table exactly, value for value. -/
theorem melt_pivot_roundtrip (names : List String) (rows : List Mrow)
    (hn : names.Nodup) (ht : (rows.map Mrow.time).Nodup)
    (hv : ∀ r ∈ rows, r.vals.length = names.length) (hne : names ≠ []) :
    pivotBack (melt names rows) = rows := by
  by_cases hrows : rows = []
  · subst hrows
    have hmelt : melt names [] = [] :=
      List.eq_nil_iff_forall_not_mem.mpr (fun x hx => by
        rw [melt, List.mem_flatMap] at hx
        obtain ⟨a, _, h⟩ := hx
        simp at h)
    rw [hmelt]
    rfl
  · rw [pivotBack]
    rw [times_pivot_melt names rows hne ht, trends_pivot_melt names rows hn hrows]
    rw [List.map_map]
    refine List.ext_getElem (by simp) (fun j h1 h2 => ?_)
    rw [List.getElem_map]
    have hj : j < rows.length := h2
    rw [← List.getD_eq_getElem rows ⟨0, []⟩ hj]
    show (⟨(rows.getD j ⟨0, []⟩).time, names.map _⟩ : Mrow) = rows.getD j ⟨0, []⟩
    conv_rhs => rw [show rows.getD j ⟨0, []⟩
      = ⟨(rows.getD j ⟨0, []⟩).time, (rows.getD j ⟨0, []⟩).vals⟩ from rfl]
    refine congrArg (fun v => Mrow.mk (rows.getD j ⟨0, []⟩).time v) ?_
    have hvlen : (rows.getD j ⟨0, []⟩).vals.length = names.length := by
      refine hv _ ?_
      rw [List.getD_eq_getElem rows _ hj]
      exact rows.getElem_mem hj
    refine List.ext_getElem (by rw [List.length_map, hvlen]) (fun i hi1 hi2 => ?_)
    rw [List.getElem_map]
    have hi : i < names.length := by simpa using hi1
    rw [← List.getD_eq_getElem names "" hi]
    rw [find?_melt_block names rows hn ht i j hi hj]
    rw [← List.getD_eq_getElem (rows.getD j ⟨0, []⟩).vals none (by
      rw [hvlen]; exact hi)]

theorem melt_pivot_roundtrip_witness :
    (["A", "B"] : List String).Nodup ∧
    pivotBack (melt ["A", "B"] [⟨0, [some 1, some 2]⟩, ⟨1, [some 3, none]⟩])
      = [⟨0, [some 1, some 2]⟩, ⟨1, [some 3, none]⟩] :=
  ⟨by decide,
    melt_pivot_roundtrip ["A", "B"] [⟨0, [some 1, some 2]⟩, ⟨1, [some 3, none]⟩]
      (by decide) (by decide) (by decide) (by decide)⟩

theorem exists_ok_ite {ε α : Type} (c : Prop) [Decidable c] (a b : α) :
    ∃ res, (if c then (Except.ok a : Except ε α) else .ok b) = .ok res :=
  if h : c then ⟨a, by rw [if_pos h]⟩ else ⟨b, by rw [if_neg h]⟩

/-- Supplementary to the continuity diagnostic: on every NON-empty merged
table the check does not raise, and when it warns it shows exactly the first
(at most 10) missing expected months, with the ellipsis flag set exactly
when more than 10 are missing. -/
theorem continuity_warning_bounded (rows : List Mrow) (hne : rows ≠ []) :
    (∃ res, continuityCheck rows = .ok res) ∧
    ∀ shown more, continuityCheck rows = .ok (.warn shown more) →
      shown = (missingMonths (rows.map Mrow.time)).take 10 ∧
      (more = true ↔ 10 < (missingMonths (rows.map Mrow.time)).length) := by
  cases rows with
  | nil => exact absurd rfl hne
  | cons r ts =>
    simp only [continuityCheck, missingMonths, List.map_cons]
    constructor
    · exact exists_ok_ite _ _ _
    · intro shown more heq
      split at heq
      · have h2 := (Except.ok.injEq _ _).mp heq
        have h3 := (ContinuityResult.warn.injEq _ _ _ _).mp h2
        refine ⟨h3.1.symm, ?_⟩
        rw [← h3.2]
        exact ⟨of_decide_eq_true, fun h => decide_eq_true h⟩
      · simp at heq
